import Mathlib

/-!
Verification of the crawl-and-consolidate core of the web-scraper repository.

The Python sources `src/app.py` and `src/crawler_service.py` are embedded
shallowly: records (Python dicts of extracted fields) become association
lists, Python string operations become executable functions on `List Char`
(ASCII fragment of `str.strip` / `str.lower`), the external `urllib.parse`
functions are parameters of the link-discovery embedding, and the progress
dictionary writes become an inductive predicate over snapshot values.
-/

/-- Whitespace test matching Python's default `str.strip` set
(ASCII fragment: tab, newline, vertical tab, form feed, carriage return, space). -/
def isSpace (c : Char) : Bool :=
  c.toNat == 32 || (decide (9 ≤ c.toNat) && decide (c.toNat ≤ 13))

/-- ASCII lower-casing of one character, as Python's `str.lower` acts on ASCII. -/
def pyLowerChar (c : Char) : Char :=
  if 65 ≤ c.toNat ∧ c.toNat ≤ 90 then Char.ofNat (c.toNat + 32) else c

/-- Strip leading and trailing whitespace from a character list. -/
def pyStripList (l : List Char) : List Char :=
  ((l.dropWhile isSpace).reverse.dropWhile isSpace).reverse

/-- Python `s.strip()`. -/
def pyStrip (s : String) : String := ⟨pyStripList s.data⟩

/-- Python `s.lower()` (ASCII fragment). -/
def pyLower (s : String) : String := ⟨s.data.map pyLowerChar⟩

/-- Python `s.startswith(p)`. -/
def pyStartsWith (s p : String) : Bool := p.data.isPrefixOf s.data

/-- Python `s[n:]` (slicing by code points). -/
def pyDrop (s : String) (n : Nat) : String := ⟨s.data.drop n⟩

/-- Python `s[:n]` (slicing by code points). -/
def pyTake (s : String) (n : Nat) : String := ⟨s.data.take n⟩

/-- A raw record: the string-valued field map of one extracted product dict.
A Python `None` value and a missing key are both modelled as an absent binding. -/
abbrev Record := List (String × String)

/-- Python's `(p.get(k) or "")` on a string-valued dict: the bound value when
present, `""` otherwise. -/
def pyGet (p : Record) (k : String) : String := (List.lookup k p).getD ""

/-- Python's `(p.get("image_url") or p.get("image") or "")` from app.py:
the `image_url` value when truthy (non-empty, even if all whitespace),
otherwise the legacy `image` value. -/
def getImage (p : Record) : String :=
  let iu := pyGet p "image_url"
  if iu = "" then pyGet p "image" else iu

/-- app.py `_normalize_name` (lines 28-41). -/
def normalizeName (name : String) : String :=
  if name = "" then ""
  else
    let normalized := pyStrip name
    let normalized :=
      if pyStartsWith (pyLower normalized) "picture of" then pyStrip (pyDrop normalized 10)
      else normalized
    pyLower normalized

/-- app.py `_score_product_completeness` (lines 44-67). -/
def scoreProductCompleteness (p : Record) : Nat :=
  let name := pyStrip (pyGet p "name")
  let price := pyStrip (pyGet p "price")
  let image := pyStrip (getImage p)
  let href := pyStrip (pyGet p "product_href")
  let description := pyStrip (pyGet p "description")
  (if name ≠ "" then 10 else 0) + (if price ≠ "" then 5 else 0) +
    (if image ≠ "" then 10 else 0) + (if href ≠ "" then 3 else 0) +
    (if description ≠ "" then 2 else 0)

/-- First pass of app.py `_clean_products` (lines 81-95): a row is kept when at
least one of name, price, image is non-blank after stripping. -/
def survivesFilter (p : Record) : Bool :=
  pyStrip (pyGet p "name") ≠ "" || pyStrip (pyGet p "price") ≠ "" ||
    pyStrip (getImage p) ≠ ""

/-- Key derivation in the second pass of app.py `_clean_products`
(lines 100-116); `none` when the derived key is empty (such rows are skipped). -/
def deriveKey (p : Record) : Option String :=
  let name := pyStrip (pyGet p "name")
  let href := pyStrip (pyGet p "product_href")
  let key :=
    if name ≠ "" then normalizeName name
    else if href ≠ "" then pyStrip (pyLower href)
    else pyTake (pyLower (pyStrip (pyGet p "price") ++ "_" ++ pyStrip (getImage p))) 50
  if key = "" then none else some key

/-- One `product_groups` dict update of `_clean_products` (lines 119-125):
insert under key `k`, or replace the stored record in place when the new one
scores strictly higher (Python dicts keep the original insertion position). -/
def updateGroups (gs : List (String × Record)) (k : String) (p : Record) :
    List (String × Record) :=
  match gs with
  | [] => [(k, p)]
  | (k', q) :: t =>
    if k' = k then
      if scoreProductCompleteness q < scoreProductCompleteness p then (k, p) :: t
      else (k', q) :: t
    else (k', q) :: updateGroups t k p

/-- The loop body of the second pass of `_clean_products`: records deriving no
key are skipped, the rest update the grouping dict. -/
def consolidateStep (gs : List (String × Record)) (p : Record) : List (String × Record) :=
  match deriveKey p with
  | none => gs
  | some k => updateGroups gs k p

/-- The grouping dict `product_groups` built by `_clean_products` over the
filtered records. -/
def groupsOf (rs : List Record) : List (String × Record) :=
  (rs.filter survivesFilter).foldl consolidateStep []

/-- app.py `_clean_products` (lines 70-127): filter, group by derived key,
keep the best-scoring record per group, in key first-insertion order. -/
def cleanProducts (rs : List Record) : List Record := (groupsOf rs).map Prod.snd

/-- The key group of `k`: the filtered records whose derived dedup key is `k`. -/
def groupFor (rs : List Record) (k : String) : List Record :=
  (rs.filter survivesFilter).filter (fun p => deriveKey p == some k)

/-- Stated from the spec's words: the winner of a key group is the record with
the highest completeness score, the first-encountered one on ties. -/
def specBest (l : List Record) : Option Record :=
  l.find? fun p => l.all fun q => scoreProductCompleteness q ≤ scoreProductCompleteness p

/-- One step of collecting the derived dedup keys in first-encountered order. -/
def keyStep (ks : List String) (p : Record) : List String :=
  match deriveKey p with
  | none => ks
  | some k => if ks.contains k then ks else ks ++ [k]

/-- The derived dedup keys of the filtered records, first-encountered order,
without repetitions. -/
def keyTrace (rs : List Record) : List String :=
  (rs.filter survivesFilter).foldl keyStep []

/-- The winner accumulation the grouping dict performs on one key's records:
start from the current holder, replace it only on a strictly higher score. -/
def runningBest (acc : Option Record) (l : List Record) : Option Record :=
  l.foldl
    (fun acc p =>
      match acc with
      | none => some p
      | some q =>
        if scoreProductCompleteness q < scoreProductCompleteness p then some p else some q)
    acc

/-- Python dict assignment `p[k] = v`: replace the first binding of `k` in
place, or append a fresh binding. -/
def setField (p : Record) (k v : String) : Record :=
  match p with
  | [] => [(k, v)]
  | (k', w) :: t => if k' = k then (k', v) :: t else (k', w) :: setField t k v

/-- The scheme and host components a parsed URL exposes to `_is_same_domain`. -/
structure UrlParts where
  scheme : String
  netloc : String
deriving DecidableEq

/-- The homepage fetch outcome `_discover_links` consumes: the success flag and
the `result.links` dict, a list of categories each holding link dicts whose
`href` entry may be missing (or empty). -/
structure FetchResult where
  success : Bool
  links : List (String × List (Option String))
deriving DecidableEq

/-- crawler_service.py `_is_same_domain` (lines 29-42), parameterised by the
library URL parser (`none` models a parse failure, which is caught and yields
`False`); a candidate with no scheme is treated as same-site. -/
def isSameDomain (uparse : String → Option UrlParts) (baseUrl candidate : String) : Bool :=
  match uparse baseUrl, uparse candidate with
  | some base, some link => if link.scheme = "" then true else base.netloc = link.netloc
  | _, _ => false

/-- crawler_service.py `_normalize_url` (lines 45-51), parameterised by the
library `urljoin`. -/
def normalizeUrl (ujoin : String → String → String) (baseUrl link : String) : String :=
  ujoin baseUrl link

/-- The `add_url` closure of `_discover_links` (lines 133-137): resolve the
link, and append it when it is new and same-site (`seen` always holds exactly
the members of `urls`, so membership in `urls` models it). -/
def addUrl (uparse : String → Option UrlParts) (ujoin : String → String → String)
    (homeUrl : String) (urls : List String) (u : String) : List String :=
  let normalized := normalizeUrl ujoin homeUrl u
  if !urls.contains normalized && isSameDomain uparse homeUrl normalized then
    urls ++ [normalized]
  else urls

/-- The inner loop of `_discover_links` (lines 147-153): falsy hrefs are
skipped, the rest are added, and the loop breaks as soon as the list reaches
`maxPages` (checked after each add). -/
def addLinks (uparse : String → Option UrlParts) (ujoin : String → String → String)
    (homeUrl : String) (maxPages : Nat) :
    List String → List (Option String) → List String
  | urls, [] => urls
  | urls, none :: rest => addLinks uparse ujoin homeUrl maxPages urls rest
  | urls, some href :: rest =>
    if href = "" then addLinks uparse ujoin homeUrl maxPages urls rest
    else
      let urls' := addUrl uparse ujoin homeUrl urls href
      if maxPages ≤ urls'.length then urls'
      else addLinks uparse ujoin homeUrl maxPages urls' rest

/-- The outer loop of `_discover_links` (lines 144-155): only the `internal`
category is processed, with the same budget break after each category. -/
def addCategories (uparse : String → Option UrlParts) (ujoin : String → String → String)
    (homeUrl : String) (maxPages : Nat) :
    List String → List (String × List (Option String)) → List String
  | urls, [] => urls
  | urls, (category, links) :: rest =>
    if category ≠ "internal" then addCategories uparse ujoin homeUrl maxPages urls rest
    else
      let urls' := addLinks uparse ujoin homeUrl maxPages urls links
      if maxPages ≤ urls'.length then urls'
      else addCategories uparse ujoin homeUrl maxPages urls' rest

/-- crawler_service.py `_discover_links` (lines 117-158): the homepage is added
first, then the fetched internal links when the fetch succeeded, and the result
is truncated to `maxPages`. -/
def discoverLinks (uparse : String → Option UrlParts) (ujoin : String → String → String)
    (homeUrl : String) (maxPages : Nat) (fetch : FetchResult) : List String :=
  let urls := addUrl uparse ujoin homeUrl [] homeUrl
  let urls :=
    if fetch.success then addCategories uparse ujoin homeUrl maxPages urls fetch.links
    else urls
  urls.take maxPages

/-- One progress dict value stored in `CRAWL_PROGRESS` for a job. -/
structure Snapshot where
  status : String
  progress : Nat
  total : Nat
  current : Nat
  error : Option String
deriving DecidableEq

/-- The initial write of `_crawl_in_background` (app.py line 135). -/
def initialSnapshot (maxPages : Nat) : Snapshot :=
  ⟨"discovering", 0, maxPages, 0, none⟩

/-- app.py `_update_progress` (lines 156-165). Python computes
`int(current / total * 100)` in floating point; at some reachable counts the
float truncation lands one below the exact floor (29/50 stores 57 where the
floor is 58), so that value is not `current * 100 / total` and floating point
is not modelled here. The stored percent is therefore abstracted as an
unspecified function `fpct` of the two counts, while the `if total > 0 else 0`
guard, the total and the current are kept exact. -/
def updateSnapshot (fpct : Nat → Nat → Nat) (current total : Nat) (status : String) :
    Snapshot :=
  ⟨status, if 0 < total then fpct current total else 0, total, current, none⟩

/-- The terminal write of `_crawl_in_background` on success (app.py line 151),
`n` being the number of consolidated products. -/
def completedSnapshot (n : Nat) : Snapshot :=
  ⟨"completed", 100, n, n, none⟩

/-- The terminal write of `_crawl_in_background` on an exception
(app.py line 153). -/
def errorSnapshot (msg : String) : Snapshot :=
  ⟨"error", 0, 0, 0, some msg⟩

/-- The snapshots app.py can store in `CRAWL_PROGRESS` for a job: the initial
write, a `_update_progress` write with whatever counts and status the progress
callback passes (its float-computed percent abstracted as `fpct`), or one of
the two terminal writes. -/
inductive WrittenSnapshot (fpct : Nat → Nat → Nat) : Snapshot → Prop
  | initial (maxPages : Nat) : WrittenSnapshot fpct (initialSnapshot maxPages)
  | update (current total : Nat) (status : String) :
      WrittenSnapshot fpct (updateSnapshot fpct current total status)
  | completed (n : Nat) : WrittenSnapshot fpct (completedSnapshot n)
  | error (msg : String) : WrittenSnapshot fpct (errorSnapshot msg)

/-- The percent the spec prescribes for a snapshot: `floor(current/total*100)`,
and 0 when total is 0. -/
def percentSpec (s : Snapshot) : Nat :=
  if 0 < s.total then s.current * 100 / s.total else 0

/-- Modelled from the spec: `crawl_site_with_progress` is imported by app.py
but absent from src/. Per spec section 4.3 its progress callback fires once
after each of the `k` resolved URLs, passing the running completed-count and
the total; each call lands in `_update_progress`. -/
def callbackTrace (fpct : Nat → Nat → Nat) (total k : Nat) : List Snapshot :=
  (List.range k).map fun i => updateSnapshot fpct (i + 1) total "fetching"

/-- The successive snapshots `_crawl_in_background` stores for one job: the
initial write, the spec-modelled callback writes, then a terminal write. -/
def jobTrace (fpct : Nat → Nat → Nat) (maxPages total k : Nat) (finalSnap : Snapshot) :
    List Snapshot :=
  initialSnapshot maxPages :: (callbackTrace fpct total k ++ [finalSnap])

/-- Read a heap cell (a dangling address yields the empty dict). -/
def heapRead (h : List Record) (a : Nat) : Record := h.getD a []

/-- First pass of `_clean_products` with the Python heap explicit: each raw
record is read, copied into a fresh cell by `p = dict(raw)`, and the copy's
address is kept when the record survives the filter. No existing cell is
written. -/
def filterPassH : List Record → List Nat → List Record × List Nat
  | h, [] => (h, [])
  | h, a :: rest =>
    let p := heapRead h a
    let h' := h ++ [p]
    if survivesFilter p then
      let r := filterPassH h' rest
      (r.1, h.length :: r.2)
    else filterPassH h' rest

/-- `updateGroups` over addresses: scores are read through the heap, which is
never written in this pass. -/
def updateGroupsH (h : List Record) :
    List (String × Nat) → String → Nat → List (String × Nat)
  | [], k, a => [(k, a)]
  | (k', b) :: t, k, a =>
    if k' = k then
      if scoreProductCompleteness (heapRead h b) < scoreProductCompleteness (heapRead h a) then
        (k, a) :: t
      else (k', b) :: t
    else (k', b) :: updateGroupsH h t k a

/-- Second pass of `_clean_products` over addresses of the surviving copies. -/
def groupPassH (h : List Record) (valids : List Nat) : List (String × Nat) :=
  valids.foldl
    (fun gs a =>
      match deriveKey (heapRead h a) with
      | none => gs
      | some k => updateGroupsH h gs k a) []

/-- app.py `_clean_products` with the heap explicit: returns the final heap and
the addresses of the returned records. -/
def cleanProductsH (h : List Record) (addrs : List Nat) : List Record × List Nat :=
  let fp := filterPassH h addrs
  (fp.1, (groupPassH fp.1 fp.2).map Prod.snd)

/-- Stated from claim C4's words, literally: normalized name when the name is
non-blank; else the trimmed-then-lowercased href when non-blank; else the
lowercase of `price + "_" + image` (the raw field values, as the words say)
truncated to 50 characters; empty keys yield `none`. -/
def specKeyClaimed (p : Record) : Option String :=
  let key :=
    if pyStrip (pyGet p "name") ≠ "" then
      let t := pyStrip (pyGet p "name")
      let t2 := if pyStartsWith (pyLower t) "picture of" then pyStrip (pyDrop t 10) else t
      pyLower t2
    else if pyStrip (pyGet p "product_href") ≠ "" then
      pyLower (pyStrip (pyGet p "product_href"))
    else pyTake (pyLower (pyGet p "price" ++ "_" ++ getImage p)) 50
  if key = "" then none else some key

/-- Claim C4 amended: as `specKeyClaimed`, except that the fallback composite
key uses the trimmed price and trimmed image, as the code does. -/
def specKeyAmended (p : Record) : Option String :=
  let key :=
    if pyStrip (pyGet p "name") ≠ "" then
      let t := pyStrip (pyGet p "name")
      let t2 := if pyStartsWith (pyLower t) "picture of" then pyStrip (pyDrop t 10) else t
      pyLower t2
    else if pyStrip (pyGet p "product_href") ≠ "" then
      pyLower (pyStrip (pyGet p "product_href"))
    else pyTake (pyLower (pyStrip (pyGet p "price") ++ "_" ++ pyStrip (getImage p))) 50
  if key = "" then none else some key

/-- Example URL parser: a concrete `urlparse` instance for witnesses. -/
def upEx : String → Option UrlParts := fun s =>
  if s = "http://s" || s = "http://s/a" then some ⟨"http", "s"⟩ else none

/-- Example URL resolver: a concrete `urljoin` instance for witnesses
(absolute links resolve to themselves). -/
def ujEx : String → String → String := fun _ u => u

/-- Example homepage fetch with one duplicate-free internal link. -/
def fetchEx : FetchResult := ⟨true, [("internal", [some "http://s/a", none, some ""])]⟩

/-- Example failed homepage fetch. -/
def fetchFailEx : FetchResult := ⟨false, []⟩

/-- Example record with a padded price and no name, href or image. -/
def exPaddedPrice : Record := [("price", " 5 ")]

/-- Example record whose whitespace `image_url` shadows a non-blank legacy
`image` in Python's `or` chain. -/
def exShadowedImage : Record := [("image_url", " "), ("image", "x")]

/-- Example record with only a name. -/
def exName : Record := [("name", "x")]

/-- Example heap of two stored raw records for the frame theorem. -/
def exHeap : List Record := [[("name", "A"), ("price", "1")], [("name", "a")]]

/-! String lemmas: stripping is idempotent and commutes with lower-casing. -/

theorem isSpace_pyLowerChar (c : Char) : isSpace (pyLowerChar c) = isSpace c := by
  unfold pyLowerChar
  split
  · rename_i h
    have h32 : c.toNat ≠ 32 := by omega
    have h13 : ¬ c.toNat ≤ 13 := by omega
    have hc : isSpace c = false := by simp [isSpace, h32, h13]
    rw [hc]
    revert h
    generalize c.toNat = n
    intro h
    obtain ⟨h1, h2⟩ := h
    interval_cases n <;> decide
  · rfl

theorem dropWhile_self_idem (p : Char → Bool) (l : List Char) :
    (l.dropWhile p).dropWhile p = l.dropWhile p := by
  cases h : l.dropWhile p with
  | nil => rfl
  | cons x xs =>
    have hx := List.head?_dropWhile_not p l
    rw [h] at hx
    simp only [List.head?_cons] at hx
    simp [List.dropWhile_cons, hx]

theorem dropWhile_head_false (p : Char → Bool) (l : List Char) (b : Char) (B' : List Char)
    (h : l.dropWhile p = b :: B') : p b = false := by
  have hx := List.head?_dropWhile_not p l
  rw [h] at hx
  simpa using hx

theorem stripRight_dropWhile_eq (A : List Char)
    (hhead : ∀ b B', A = b :: B' → isSpace b = false) :
    List.dropWhile isSpace ((A.reverse.dropWhile isSpace).reverse)
      = (A.reverse.dropWhile isSpace).reverse := by
  cases hc : (A.reverse.dropWhile isSpace).reverse with
  | nil => rfl
  | cons b B' =>
    have hsplit := List.takeWhile_append_dropWhile (p := isSpace) (l := A.reverse)
    have hAapp : A = (A.reverse.dropWhile isSpace).reverse
        ++ (A.reverse.takeWhile isSpace).reverse := by
      conv_lhs => rw [← List.reverse_reverse A, ← hsplit]
      rw [List.reverse_append]
    rw [hc] at hAapp
    have hb : isSpace b = false :=
      hhead b (B' ++ (A.reverse.takeWhile isSpace).reverse) (by simpa using hAapp)
    simp [List.dropWhile_cons, hb]

theorem pyStripList_idem (l : List Char) : pyStripList (pyStripList l) = pyStripList l := by
  unfold pyStripList
  rw [stripRight_dropWhile_eq (l.dropWhile isSpace)
      (fun b B' h => dropWhile_head_false isSpace l b B' h),
    List.reverse_reverse, dropWhile_self_idem]

theorem pyStripList_map_lower (l : List Char) :
    pyStripList (l.map pyLowerChar) = (pyStripList l).map pyLowerChar := by
  have hfun : (isSpace ∘ pyLowerChar) = isSpace := funext isSpace_pyLowerChar
  unfold pyStripList
  rw [List.dropWhile_map, hfun, ← List.map_reverse, List.dropWhile_map, hfun,
    ← List.map_reverse]

theorem pyStrip_pyStrip (s : String) : pyStrip (pyStrip s) = pyStrip s := by
  unfold pyStrip
  exact congrArg String.mk (pyStripList_idem s.data)

theorem pyStrip_pyLower (s : String) : pyStrip (pyLower s) = pyLower (pyStrip s) := by
  unfold pyStrip pyLower
  exact congrArg String.mk (pyStripList_map_lower s.data)

theorem pyStrip_pyLower_pyStrip (s : String) :
    pyStrip (pyLower (pyStrip s)) = pyLower (pyStrip s) := by
  rw [pyStrip_pyLower, pyStrip_pyStrip]

/-! Lemmas about record field access and update. -/

theorem lookup_setField (p : Record) (k v k' : String) :
    List.lookup k' (setField p k v) = if k' = k then some v else List.lookup k' p := by
  induction p with
  | nil =>
    by_cases h : k' = k
    · subst h
      simp [setField, List.lookup_cons]
    · have hb : (k' == k) = false := by simp [h]
      simp [setField, List.lookup_cons, hb, h]
  | cons hd t ih =>
    obtain ⟨k0, w⟩ := hd
    simp only [setField]
    by_cases h0 : k0 = k
    · subst h0
      rw [if_pos rfl]
      by_cases h1 : k' = k0
      · subst h1
        simp [List.lookup_cons]
      · have hb : (k' == k0) = false := by simp [h1]
        simp [List.lookup_cons, hb, h1]
    · rw [if_neg h0]
      by_cases h1 : k' = k0
      · subst h1
        have hk : ¬ k' = k := fun h => h0 h
        simp [List.lookup_cons, hk]
      · have hb : (k' == k0) = false := by simp [h1]
        simp [List.lookup_cons, hb, ih]

theorem pyGet_setField (p : Record) (k v k' : String) :
    pyGet (setField p k v) k' = if k' = k then v else pyGet p k' := by
  unfold pyGet
  rw [lookup_setField]
  by_cases h : k' = k <;> simp [h]

theorem pyStrip_ne_empty_arg (v : String) (hv : pyStrip v ≠ "") : v ≠ "" := by
  intro h
  rw [h] at hv
  exact hv rfl

theorem pyGet_setField_ne (p : Record) (k v k' : String) (h : k' ≠ k) :
    pyGet (setField p k v) k' = pyGet p k' := by
  rw [pyGet_setField, if_neg h]

theorem pyGet_setField_self (p : Record) (k v : String) :
    pyGet (setField p k v) k = v := by
  rw [pyGet_setField, if_pos rfl]

theorem scoreCompleteness_addField_mono (p : Record) (k v : String)
    (hv : pyStrip v ≠ "") (hblank : pyStrip (pyGet p k) = "") :
    scoreProductCompleteness p ≤ scoreProductCompleteness (setField p k v) := by
  have hv' : v ≠ "" := pyStrip_ne_empty_arg v hv
  by_cases h1 : k = "name"
  · subst h1
    have himg : getImage (setField p "name" v) = getImage p := by
      unfold getImage
      rw [pyGet_setField_ne _ _ _ _ (by decide), pyGet_setField_ne _ _ _ _ (by decide)]
    simp only [scoreProductCompleteness, himg, pyGet_setField_self,
      pyGet_setField_ne p "name" v "price" (by decide),
      pyGet_setField_ne p "name" v "product_href" (by decide),
      pyGet_setField_ne p "name" v "description" (by decide),
      hblank, hv]
    simp
  · by_cases h2 : k = "price"
    · subst h2
      have himg : getImage (setField p "price" v) = getImage p := by
        unfold getImage
        rw [pyGet_setField_ne _ _ _ _ (by decide), pyGet_setField_ne _ _ _ _ (by decide)]
      simp only [scoreProductCompleteness, himg, pyGet_setField_self,
        pyGet_setField_ne p "price" v "name" (by decide),
        pyGet_setField_ne p "price" v "product_href" (by decide),
        pyGet_setField_ne p "price" v "description" (by decide),
        hblank, hv]
      simp
    · by_cases h3 : k = "image_url"
      · subst h3
        have himg : getImage (setField p "image_url" v) = v := by
          unfold getImage
          rw [pyGet_setField_self, if_neg hv']
        simp only [scoreProductCompleteness, himg, pyGet_setField_self,
          pyGet_setField_ne p "image_url" v "name" (by decide),
          pyGet_setField_ne p "image_url" v "price" (by decide),
          pyGet_setField_ne p "image_url" v "product_href" (by decide),
          pyGet_setField_ne p "image_url" v "description" (by decide)]
        split_ifs <;> omega
      · by_cases h4 : k = "image"
        · subst h4
          have hiu : pyGet (setField p "image" v) "image_url" = pyGet p "image_url" :=
            pyGet_setField_ne _ _ _ _ (by decide)
          by_cases hiuv : pyGet p "image_url" = ""
          · have himg : getImage (setField p "image" v) = v := by
              unfold getImage
              rw [hiu, if_pos hiuv, pyGet_setField_self]
            have himgp : getImage p = pyGet p "image" := by
              unfold getImage
              rw [if_pos hiuv]
            simp only [scoreProductCompleteness, himg, himgp,
              pyGet_setField_ne p "image" v "name" (by decide),
              pyGet_setField_ne p "image" v "price" (by decide),
              pyGet_setField_ne p "image" v "product_href" (by decide),
              pyGet_setField_ne p "image" v "description" (by decide),
              hblank, hv]
            simp
          · have himg : getImage (setField p "image" v) = pyGet p "image_url" := by
              unfold getImage
              rw [hiu, if_neg hiuv]
            have himgp : getImage p = pyGet p "image_url" := by
              unfold getImage
              rw [if_neg hiuv]
            simp only [scoreProductCompleteness, himg, himgp,
              pyGet_setField_ne p "image" v "name" (by decide),
              pyGet_setField_ne p "image" v "price" (by decide),
              pyGet_setField_ne p "image" v "product_href" (by decide),
              pyGet_setField_ne p "image" v "description" (by decide)]
            omega
        · by_cases h5 : k = "product_href"
          · subst h5
            have himg : getImage (setField p "product_href" v) = getImage p := by
              unfold getImage
              rw [pyGet_setField_ne _ _ _ _ (by decide), pyGet_setField_ne _ _ _ _ (by decide)]
            simp only [scoreProductCompleteness, himg, pyGet_setField_self,
              pyGet_setField_ne p "product_href" v "name" (by decide),
              pyGet_setField_ne p "product_href" v "price" (by decide),
              pyGet_setField_ne p "product_href" v "description" (by decide),
              hblank, hv]
            simp
          · by_cases h6 : k = "description"
            · subst h6
              have himg : getImage (setField p "description" v) = getImage p := by
                unfold getImage
                rw [pyGet_setField_ne _ _ _ _ (by decide), pyGet_setField_ne _ _ _ _ (by decide)]
              simp only [scoreProductCompleteness, himg, pyGet_setField_self,
                pyGet_setField_ne p "description" v "name" (by decide),
                pyGet_setField_ne p "description" v "price" (by decide),
                pyGet_setField_ne p "description" v "product_href" (by decide),
                hblank, hv]
              simp
            · have himg : getImage (setField p k v) = getImage p := by
                unfold getImage
                rw [pyGet_setField_ne _ _ _ _ (fun h => h3 h.symm),
                  pyGet_setField_ne _ _ _ _ (fun h => h4 h.symm)]
              simp only [scoreProductCompleteness, himg,
                pyGet_setField_ne p k v "name" (fun h => h1 h.symm),
                pyGet_setField_ne p k v "price" (fun h => h2 h.symm),
                pyGet_setField_ne p k v "product_href" (fun h => h5 h.symm),
                pyGet_setField_ne p k v "description" (fun h => h6 h.symm)]
              omega

/-! Progress snapshot lemmas. -/

theorem jobTrace_dropLast (fpct : Nat → Nat → Nat) (maxPages total k : Nat)
    (finalSnap : Snapshot) :
    (jobTrace fpct maxPages total k finalSnap).dropLast
      = initialSnapshot maxPages :: callbackTrace fpct total k := by
  unfold jobTrace
  rw [← List.cons_append, List.dropLast_concat]

theorem callbackTrace_currents (fpct : Nat → Nat → Nat) (total k : Nat) :
    (callbackTrace fpct total k).map Snapshot.current = (List.range k).map (· + 1) := by
  unfold callbackTrace
  rw [List.map_map]
  rfl

theorem callbackTrace_statuses (fpct : Nat → Nat → Nat) (total k : Nat) :
    (callbackTrace fpct total k).map Snapshot.status = List.replicate k "fetching" := by
  unfold callbackTrace
  rw [List.map_map]
  have h : (Snapshot.status ∘ fun i => updateSnapshot fpct (i + 1) total "fetching")
      = fun _ => "fetching" := rfl
  rw [h, List.map_const', List.length_range]

/-- Claim C3 counterexample: the terminal `completed` snapshot of a job with
zero consolidated products is stored with current = total = 0 but percent 100,
not the 0 the claim prescribes for total = 0 (no float computation is involved
in this write, so the refutation is exact whatever `fpct` is). -/
theorem claim_C3_counterexample :
    WrittenSnapshot (fun _ _ => 0) (completedSnapshot 0) ∧
      (completedSnapshot 0).progress ≠ percentSpec (completedSnapshot 0) :=
  ⟨WrittenSnapshot.completed 0, by decide⟩

/-- Claim C3 amended: every snapshot stored for a job carries
percent = floor(current/total*100), 0 when total is 0 — except the terminal
`completed` snapshot of a job with zero products, which stores percent 100
with current = total = 0, and except the mid-crawl `_update_progress` writes
with a positive total, whose percent is `int(current/total*100)` computed in
Python floating point: that value can land below the exact floor (29/50
stores 57 where the floor is 58) and is left abstract here as `fpct`. -/
theorem claim_C3_percent_invariant (fpct : Nat → Nat → Nat) (s : Snapshot)
    (h : WrittenSnapshot fpct s) :
    s.progress = percentSpec s ∨
      (s.status = "completed" ∧ s.total = 0 ∧ s.current = 0 ∧ s.progress = 100) ∨
      (0 < s.total ∧ s = updateSnapshot fpct s.current s.total s.status) := by
  cases h with
  | initial maxPages =>
    left
    unfold initialSnapshot percentSpec
    by_cases h0 : 0 < maxPages <;> simp [h0]
  | update c t st =>
    by_cases h0 : 0 < t
    · right
      right
      refine ⟨h0, ?_⟩
      unfold updateSnapshot
      simp
    · left
      unfold updateSnapshot percentSpec
      simp [h0]
  | completed n =>
    rcases Nat.eq_zero_or_pos n with hn | hn
    · subst hn
      exact Or.inr (Or.inl ⟨rfl, rfl, rfl, rfl⟩)
    · left
      show (100 : Nat) = percentSpec (completedSnapshot n)
      unfold completedSnapshot percentSpec
      simp only
      rw [if_pos hn, Nat.mul_div_cancel_left 100 hn]
  | error msg =>
    left
    rfl

/-- Claim C3 witness: a mid-crawl `_update_progress` write with total 0 stores
percent 0, matching the floor convention exactly. -/
theorem claim_C3_witness :
    (updateSnapshot (fun _ _ => 0) 29 0 "fetching").progress
        = percentSpec (updateSnapshot (fun _ _ => 0) 29 0 "fetching") ∨
      ((updateSnapshot (fun _ _ => 0) 29 0 "fetching").status = "completed" ∧
        (updateSnapshot (fun _ _ => 0) 29 0 "fetching").total = 0 ∧
        (updateSnapshot (fun _ _ => 0) 29 0 "fetching").current = 0 ∧
        (updateSnapshot (fun _ _ => 0) 29 0 "fetching").progress = 100) ∨
      (0 < (updateSnapshot (fun _ _ => 0) 29 0 "fetching").total ∧
        updateSnapshot (fun _ _ => 0) 29 0 "fetching"
          = updateSnapshot (fun _ _ => 0)
              (updateSnapshot (fun _ _ => 0) 29 0 "fetching").current
              (updateSnapshot (fun _ _ => 0) 29 0 "fetching").total
              (updateSnapshot (fun _ _ => 0) 29 0 "fetching").status) :=
  claim_C3_percent_invariant (fun _ _ => 0) _ (WrittenSnapshot.update 29 0 "fetching")

/-- Claim C8: within one job, the `current` field of the successive progress
snapshots is non-decreasing until the terminal write, whatever value the
abstract float percent `fpct` takes, and no snapshot before the terminal one
carries a terminal status. The callback pattern is modelled from the spec,
`crawl_site_with_progress` being absent from src/. -/
theorem claim_C8_progress_monotone (fpct : Nat → Nat → Nat) (maxPages total k : Nat)
    (finalSnap : Snapshot) :
    List.Chain' (fun a b => a.current ≤ b.current)
        ((jobTrace fpct maxPages total k finalSnap).dropLast) ∧
      ((jobTrace fpct maxPages total k finalSnap).dropLast.map Snapshot.status)
        = "discovering" :: List.replicate k "fetching" := by
  rw [jobTrace_dropLast]
  constructor
  · have hm : (initialSnapshot maxPages :: callbackTrace fpct total k).map Snapshot.current
        = List.range (k + 1) := by
      rw [List.map_cons, callbackTrace_currents]
      have h0 : (initialSnapshot maxPages).current = 0 := rfl
      rw [h0, List.range_succ_eq_map]
    have hc : List.Chain' (· ≤ ·)
        ((initialSnapshot maxPages :: callbackTrace fpct total k).map Snapshot.current) := by
      rw [hm]
      exact (List.chain'_range_succ (· ≤ ·) k).mpr fun m _ => Nat.le_succ m
    exact (List.chain'_map Snapshot.current).mp hc
  · rw [List.map_cons, callbackTrace_statuses]
    rfl

/-! Link discovery lemmas. -/

theorem addUrl_extend (uparse : String → Option UrlParts) (ujoin : String → String → String)
    (homeUrl : String) (urls : List String) (u : String) :
    ∃ t, addUrl uparse ujoin homeUrl urls u = urls ++ t := by
  simp only [addUrl]
  split
  · exact ⟨[normalizeUrl ujoin homeUrl u], rfl⟩
  · exact ⟨[], (List.append_nil urls).symm⟩

theorem addLinks_extend (uparse : String → Option UrlParts) (ujoin : String → String → String)
    (homeUrl : String) (maxPages : Nat) (urls : List String) (l : List (Option String)) :
    ∃ t, addLinks uparse ujoin homeUrl maxPages urls l = urls ++ t := by
  induction l generalizing urls with
  | nil => exact ⟨[], (List.append_nil urls).symm⟩
  | cons hd rest ih =>
    cases hd with
    | none => simpa [addLinks] using ih urls
    | some href =>
      by_cases he : href = ""
      · simpa [addLinks, he] using ih urls
      · obtain ⟨t0, h0⟩ := addUrl_extend uparse ujoin homeUrl urls href
        by_cases hstop : maxPages ≤ urls.length + t0.length
        · refine ⟨t0, ?_⟩
          simp [addLinks, he, h0]
          intro h
          omega
        · obtain ⟨t1, h1⟩ := ih (urls ++ t0)
          refine ⟨t0 ++ t1, ?_⟩
          simp [addLinks, he, h0, h1]
          intro h
          omega

theorem addCategories_extend (uparse : String → Option UrlParts)
    (ujoin : String → String → String) (homeUrl : String) (maxPages : Nat)
    (urls : List String) (cats : List (String × List (Option String))) :
    ∃ t, addCategories uparse ujoin homeUrl maxPages urls cats = urls ++ t := by
  induction cats generalizing urls with
  | nil => exact ⟨[], (List.append_nil urls).symm⟩
  | cons hd rest ih =>
    obtain ⟨category, links⟩ := hd
    by_cases hc : category ≠ "internal"
    · simpa [addCategories, hc] using ih urls
    · obtain ⟨t0, h0⟩ := addLinks_extend uparse ujoin homeUrl maxPages urls links
      by_cases hstop : maxPages ≤ urls.length + t0.length
      · refine ⟨t0, ?_⟩
        simp [addCategories, hc, h0]
        intro h
        omega
      · obtain ⟨t1, h1⟩ := ih (urls ++ t0)
        refine ⟨t0 ++ t1, ?_⟩
        simp [addCategories, hc, h0, h1]
        intro h
        omega

theorem addUrl_nil_self (uparse : String → Option UrlParts)
    (ujoin : String → String → String) (homeUrl : String)
    (h2 : ujoin homeUrl homeUrl = homeUrl)
    (h3 : isSameDomain uparse homeUrl homeUrl = true) :
    addUrl uparse ujoin homeUrl [] homeUrl = [homeUrl] := by
  unfold addUrl normalizeUrl
  rw [h2]
  simp [h3]

theorem head?_take_pos (a : String) (t : List String) (maxPages : Nat) (h : 1 ≤ maxPages) :
    ((a :: t).take maxPages).head? = some a := by
  cases maxPages with
  | zero => omega
  | succ m => rfl


/-- Claim C2 counterexample: with page budget 0 the discovery list is empty, so
its first element is not the seed URL (the claim quantifies over every budget). -/
theorem claim_C2_counterexample :
    ¬ ((discoverLinks upEx ujEx "http://s" 0 fetchEx).head? = some "http://s" ∧
      (discoverLinks upEx ujEx "http://s" 0 fetchEx).length ≤ 0) := by
  decide

/-- Claim C2 amended: for every seed URL and page budget of at least 1 —
provided resolving the seed against itself yields the seed and the seed is
same-site with itself, as holds for well-formed absolute URLs — `discover`
returns a list whose first element is the seed URL and whose length never
exceeds the budget. -/
theorem claim_C2_discover_contract (uparse : String → Option UrlParts)
    (ujoin : String → String → String) (homeUrl : String) (maxPages : Nat)
    (fetch : FetchResult) (h1 : 1 ≤ maxPages)
    (h2 : ujoin homeUrl homeUrl = homeUrl)
    (h3 : isSameDomain uparse homeUrl homeUrl = true) :
    (discoverLinks uparse ujoin homeUrl maxPages fetch).head? = some homeUrl ∧
      (discoverLinks uparse ujoin homeUrl maxPages fetch).length ≤ maxPages := by
  have hbase := addUrl_nil_self uparse ujoin homeUrl h2 h3
  constructor
  · simp only [discoverLinks, hbase]
    cases hs : fetch.success with
    | false =>
      simp only [Bool.false_eq_true, if_false]
      exact head?_take_pos homeUrl [] maxPages h1
    | true =>
      simp only [if_true]
      obtain ⟨t, ht⟩ :=
        addCategories_extend uparse ujoin homeUrl maxPages [homeUrl] fetch.links
      rw [ht]
      exact head?_take_pos homeUrl t maxPages h1
  · simp only [discoverLinks]
    exact List.length_take_le maxPages _

/-- Claim C2 witness: a concrete discovery run with budget 2 returns the seed
first and respects the budget. -/
theorem claim_C2_witness :
    (discoverLinks upEx ujEx "http://s" 2 fetchEx).head? = some "http://s" ∧
      (discoverLinks upEx ujEx "http://s" 2 fetchEx).length ≤ 2 :=
  claim_C2_discover_contract upEx ujEx "http://s" 2 fetchEx (by decide) rfl (by decide)

/-- Claim C9 counterexample: with page budget 0 a failed homepage fetch yields
the empty list, not the one-element seed list (the claim quantifies over every
budget). -/
theorem claim_C9_counterexample :
    discoverLinks upEx ujEx "http://s" 0 fetchFailEx ≠ ["http://s"] := by
  decide

/-- Claim C9 amended: for every seed URL and page budget of at least 1 —
provided resolving the seed against itself yields the seed and the seed is
same-site with itself — a completely failed homepage fetch makes `discover`
return exactly the one-element list holding the seed URL, so the crawl
degrades to a homepage-only crawl instead of aborting. -/
theorem claim_C9_discover_failure (uparse : String → Option UrlParts)
    (ujoin : String → String → String) (homeUrl : String) (maxPages : Nat)
    (fetch : FetchResult) (h1 : 1 ≤ maxPages)
    (h2 : ujoin homeUrl homeUrl = homeUrl)
    (h3 : isSameDomain uparse homeUrl homeUrl = true)
    (hf : fetch.success = false) :
    discoverLinks uparse ujoin homeUrl maxPages fetch = [homeUrl] := by
  have hbase := addUrl_nil_self uparse ujoin homeUrl h2 h3
  simp only [discoverLinks, hbase, hf, Bool.false_eq_true, if_false]
  cases maxPages with
  | zero => omega
  | succ m => simp

/-- Claim C9 witness: a concrete failed fetch with budget 3 returns just the
seed URL. -/
theorem claim_C9_witness :
    discoverLinks upEx ujEx "http://s" 3 fetchFailEx = ["http://s"] :=
  claim_C9_discover_failure upEx ujEx "http://s" 3 fetchFailEx (by decide) rfl (by decide) rfl

/-! Grouping dict lemmas for the consolidation passes. -/

theorem lookup_updateGroups_ne (gs : List (String × Record)) (k : String) (p : Record)
    (k' : String) (h : k' ≠ k) :
    List.lookup k' (updateGroups gs k p) = List.lookup k' gs := by
  induction gs with
  | nil =>
    have hb : (k' == k) = false := by simp [h]
    simp [updateGroups, List.lookup_cons, hb]
  | cons hd t ih =>
    obtain ⟨k0, q⟩ := hd
    simp only [updateGroups]
    by_cases h0 : k0 = k
    · subst h0
      rw [if_pos rfl]
      have hb : (k' == k0) = false := by simp [h]
      split <;> simp [List.lookup_cons, hb]
    · rw [if_neg h0]
      by_cases h1 : k' = k0
      · subst h1
        simp [List.lookup_cons]
      · have hb : (k' == k0) = false := by simp [h1]
        simp [List.lookup_cons, hb, ih]

theorem lookup_updateGroups_self (gs : List (String × Record)) (k : String) (p : Record) :
    List.lookup k (updateGroups gs k p)
      = match List.lookup k gs with
        | none => some p
        | some q =>
          if scoreProductCompleteness q < scoreProductCompleteness p then some p
          else some q := by
  induction gs with
  | nil => simp [updateGroups, List.lookup_cons]
  | cons hd t ih =>
    obtain ⟨k0, q⟩ := hd
    simp only [updateGroups]
    by_cases h0 : k0 = k
    · subst h0
      rw [if_pos rfl]
      split <;> rename_i hc <;> simp [List.lookup_cons, hc]
    · rw [if_neg h0]
      have h0' : ¬ k = k0 := fun he => h0 he.symm
      have hb : (k == k0) = false := by simp [h0']
      simp [List.lookup_cons, hb, ih]

theorem lookup_foldl_consolidateStep (l : List Record) (gs : List (String × Record))
    (k : String) :
    List.lookup k (l.foldl consolidateStep gs)
      = runningBest (List.lookup k gs) (l.filter fun p => deriveKey p == some k) := by
  induction l generalizing gs with
  | nil => rfl
  | cons p t ih =>
    rw [List.foldl_cons]
    cases hd : deriveKey p with
    | none =>
      have hstep : consolidateStep gs p = gs := by simp [consolidateStep, hd]
      have hfc : List.filter (fun q => deriveKey q == some k) (p :: t)
          = List.filter (fun q => deriveKey q == some k) t := by
        simp [List.filter_cons, hd]
      rw [hstep, hfc, ih]
    | some k' =>
      have hstep : consolidateStep gs p = updateGroups gs k' p := by
        simp [consolidateStep, hd]
      rw [hstep]
      by_cases hk : k' = k
      · subst hk
        have hfc : List.filter (fun q => deriveKey q == some k') (p :: t)
            = p :: List.filter (fun q => deriveKey q == some k') t := by
          simp [List.filter_cons, hd]
        rw [hfc, ih, lookup_updateGroups_self]
        rfl
      · have hfc : List.filter (fun q => deriveKey q == some k) (p :: t)
            = List.filter (fun q => deriveKey q == some k) t := by
          simp [List.filter_cons, hd, hk]
        rw [hfc, ih, lookup_updateGroups_ne gs k' p k (fun he => hk he.symm)]

theorem fst_updateGroups (gs : List (String × Record)) (k : String) (p : Record) :
    (updateGroups gs k p).map Prod.fst
      = if (gs.map Prod.fst).contains k then gs.map Prod.fst
        else gs.map Prod.fst ++ [k] := by
  induction gs with
  | nil => simp [updateGroups]
  | cons hd t ih =>
    obtain ⟨k0, q⟩ := hd
    simp only [updateGroups]
    by_cases h0 : k0 = k
    · subst h0
      rw [if_pos rfl]
      have hc : ((k0 :: t.map Prod.fst).contains k0) = true := by simp
      split <;> simp [hc]
    · rw [if_neg h0]
      have h0' : ¬ k = k0 := fun he => h0 he.symm
      by_cases hc : k ∈ t.map Prod.fst
      · simp [ih, h0', hc]
      · simp [ih, h0', hc]

theorem fst_foldl_consolidateStep (l : List Record) (gs : List (String × Record)) :
    (l.foldl consolidateStep gs).map Prod.fst = l.foldl keyStep (gs.map Prod.fst) := by
  induction l generalizing gs with
  | nil => rfl
  | cons p t ih =>
    rw [List.foldl_cons, List.foldl_cons]
    cases hd : deriveKey p with
    | none =>
      have hstep : consolidateStep gs p = gs := by simp [consolidateStep, hd]
      have hks : keyStep (gs.map Prod.fst) p = gs.map Prod.fst := by simp [keyStep, hd]
      rw [hstep, hks, ih]
    | some k =>
      have hstep : consolidateStep gs p = updateGroups gs k p := by
        simp [consolidateStep, hd]
      have hks : keyStep (gs.map Prod.fst) p
          = if (gs.map Prod.fst).contains k then gs.map Prod.fst
            else gs.map Prod.fst ++ [k] := by
        simp [keyStep, hd]
      rw [hstep, hks, ih, fst_updateGroups]

theorem keyStep_nodup (ks : List String) (p : Record) (h : ks.Nodup) : (keyStep ks p).Nodup := by
  cases hd : deriveKey p with
  | none => simpa [keyStep, hd] using h
  | some k =>
    simp only [keyStep, hd]
    by_cases hc : ks.contains k
    · rw [if_pos hc]
      exact h
    · rw [if_neg hc, ← List.concat_eq_append]
      exact List.Nodup.concat (fun hm => hc (List.elem_iff.mpr hm)) h

theorem keyFold_nodup (l : List Record) (ks : List String) (h : ks.Nodup) :
    (l.foldl keyStep ks).Nodup := by
  induction l generalizing ks with
  | nil => exact h
  | cons p t ih => exact ih (keyStep ks p) (keyStep_nodup ks p h)

theorem keyTrace_nodup (rs : List Record) : (keyTrace rs).Nodup :=
  keyFold_nodup (rs.filter survivesFilter) [] List.nodup_nil

theorem keyFold_mem (l : List Record) (ks : List String) (k : String)
    (h : k ∈ l.foldl keyStep ks) : k ∈ ks ∨ ∃ p ∈ l, deriveKey p = some k := by
  induction l generalizing ks with
  | nil => exact Or.inl h
  | cons p t ih =>
    rw [List.foldl_cons] at h
    rcases ih (keyStep ks p) h with hin | ⟨q, hq, hdq⟩
    · cases hd : deriveKey p with
      | none =>
        have hin' : k ∈ ks := by simpa [keyStep, hd] using hin
        exact Or.inl hin'
      | some k' =>
        have hin' : k ∈ (if ks.contains k' then ks else ks ++ [k']) := by
          simpa [keyStep, hd] using hin
        by_cases hc : ks.contains k'
        · rw [if_pos hc] at hin'
          exact Or.inl hin'
        · rw [if_neg hc] at hin'
          rcases List.mem_append.mp hin' with hks | hone
          · exact Or.inl hks
          · have hkk : k = k' := by simpa using hone
            subst hkk
            exact Or.inr ⟨p, by simp, hd⟩
    · exact Or.inr ⟨q, by simp [hq], hdq⟩

theorem keyTrace_mem (rs : List Record) (k : String) (h : k ∈ keyTrace rs) :
    ∃ p ∈ rs.filter survivesFilter, deriveKey p = some k := by
  rcases keyFold_mem (rs.filter survivesFilter) [] k h with hin | hex
  · cases hin
  · exact hex

theorem lookup_of_mem_nodupKeys (gs : List (String × Record))
    (h : (gs.map Prod.fst).Nodup) (k : String) (q : Record) (hm : (k, q) ∈ gs) :
    List.lookup k gs = some q := by
  induction gs with
  | nil => cases hm
  | cons hd t ih =>
    obtain ⟨k0, w⟩ := hd
    rcases List.mem_cons.mp hm with he | ht
    · cases he
      simp [List.lookup_cons]
    · have hk : k ≠ k0 := by
        intro hkk
        subst hkk
        have hmem : k ∈ t.map Prod.fst := List.mem_map.mpr ⟨(k, q), ht, rfl⟩
        exact (List.nodup_cons.mp (by simpa using h)).1 hmem
      have hb : (k == k0) = false := by simp [hk]
      have hnd : (t.map Prod.fst).Nodup := (List.nodup_cons.mp (by simpa using h)).2
      simp [List.lookup_cons, hb, ih hnd ht]

theorem find?_congr_mem (l : List Record) (p q : Record → Bool)
    (h : ∀ x ∈ l, p x = q x) : l.find? p = l.find? q := by
  induction l with
  | nil => rfl
  | cons a t ih =>
    rw [List.find?_cons, List.find?_cons, h a (by simp)]
    cases hq : q a
    · exact ih fun x hx => h x (by simp [hx])
    · rfl

theorem specBest_cons_lt (b p : Record) (t : List Record)
    (h : scoreProductCompleteness b < scoreProductCompleteness p) :
    specBest (b :: p :: t) = specBest (p :: t) := by
  unfold specBest
  have hnb : ¬ (((b :: p :: t).all fun q =>
      scoreProductCompleteness q ≤ scoreProductCompleteness b) = true) := by
    simp only [List.all_cons, Bool.and_eq_true, decide_eq_true_eq]
    intro hcon
    obtain ⟨h1, h2, h3⟩ := hcon
    omega
  rw [@List.find?_cons_of_neg _ (fun x => (b :: p :: t).all fun q =>
    decide (scoreProductCompleteness q ≤ scoreProductCompleteness x)) b (p :: t) hnb]
  apply find?_congr_mem
  intro x hx
  cases htx : ((p :: t).all fun q =>
      scoreProductCompleteness q ≤ scoreProductCompleteness x) with
  | true =>
    have hall := List.all_eq_true.mp htx
    have hpx : scoreProductCompleteness p ≤ scoreProductCompleteness x := by
      simpa using hall p (List.mem_cons_self p t)
    have hbx : scoreProductCompleteness b ≤ scoreProductCompleteness x := by omega
    apply List.all_eq_true.mpr
    intro y hy
    rcases List.mem_cons.mp hy with hyb | hyt
    · subst hyb
      simpa using hbx
    · exact hall y hyt
  | false =>
    simp only [List.all_cons] at htx ⊢
    rw [htx]
    simp

theorem specBest_cons_ge (b p : Record) (t : List Record)
    (h : scoreProductCompleteness p ≤ scoreProductCompleteness b) :
    specBest (b :: p :: t) = specBest (b :: t) := by
  unfold specBest
  cases hball : ((b :: t).all fun q =>
      scoreProductCompleteness q ≤ scoreProductCompleteness b) with
  | true =>
    have hall := List.all_eq_true.mp hball
    have hbig : ((b :: p :: t).all fun q =>
        scoreProductCompleteness q ≤ scoreProductCompleteness b) = true := by
      apply List.all_eq_true.mpr
      intro y hy
      rcases List.mem_cons.mp hy with hyb | hyt
      · subst hyb
        exact hall _ (List.mem_cons_self _ _)
      · rcases List.mem_cons.mp hyt with hyp | hyt'
        · subst hyp
          simpa using h
        · exact hall y (by simp [hyt'])
    rw [@List.find?_cons_of_pos _ (fun x => (b :: p :: t).all fun q =>
        decide (scoreProductCompleteness q ≤ scoreProductCompleteness x)) b (p :: t) hbig,
      @List.find?_cons_of_pos _ (fun x => (b :: t).all fun q =>
        decide (scoreProductCompleteness q ≤ scoreProductCompleteness x)) b t hball]
  | false =>
    obtain ⟨y, hy, hylt⟩ := List.all_eq_false.mp hball
    have hyb : scoreProductCompleteness b < scoreProductCompleteness y := by
      simp at hylt
      omega
    have hyin : y ∈ b :: p :: t := by
      rcases List.mem_cons.mp hy with hyb' | hyt
      · subst hyb'
        simp
      · simp [hyt]
    have hbig : ¬ (((b :: p :: t).all fun q =>
        scoreProductCompleteness q ≤ scoreProductCompleteness b) = true) := by
      simp only [List.all_eq_true]
      intro hall
      have hybb := hall y hyin
      simp at hybb
      omega
    have hpfail : ¬ (((b :: p :: t).all fun q =>
        scoreProductCompleteness q ≤ scoreProductCompleteness p) = true) := by
      simp only [List.all_eq_true]
      intro hall
      have hypp := hall y hyin
      simp at hypp
      omega
    have hballn : ¬ (((b :: t).all fun q =>
        scoreProductCompleteness q ≤ scoreProductCompleteness b) = true) := by
      simp [hball]
    rw [@List.find?_cons_of_neg _ (fun x => (b :: p :: t).all fun q =>
        decide (scoreProductCompleteness q ≤ scoreProductCompleteness x)) b (p :: t) hbig,
      @List.find?_cons_of_neg _ (fun x => (b :: p :: t).all fun q =>
        decide (scoreProductCompleteness q ≤ scoreProductCompleteness x)) p t hpfail,
      @List.find?_cons_of_neg _ (fun x => (b :: t).all fun q =>
        decide (scoreProductCompleteness q ≤ scoreProductCompleteness x)) b t hballn]
    apply find?_congr_mem
    intro x hx
    by_cases hbx : scoreProductCompleteness b ≤ scoreProductCompleteness x
    · have hpx : scoreProductCompleteness p ≤ scoreProductCompleteness x := by omega
      simp [List.all_cons, hbx, hpx]
    · simp [List.all_cons, hbx]

theorem runningBest_some_eq_specBest (l : List Record) (b : Record) :
    runningBest (some b) l = specBest (b :: l) := by
  induction l generalizing b with
  | nil => simp [runningBest, specBest]
  | cons p t ih =>
    have hstep : runningBest (some b) (p :: t)
        = runningBest
            (if scoreProductCompleteness b < scoreProductCompleteness p then some p
             else some b) t := rfl
    rw [hstep]
    by_cases hbp : scoreProductCompleteness b < scoreProductCompleteness p
    · rw [if_pos hbp, ih, specBest_cons_lt b p t hbp]
    · rw [if_neg hbp, ih, specBest_cons_ge b p t (by omega)]

theorem runningBest_none_eq_specBest (l : List Record) :
    runningBest none l = specBest l := by
  cases l with
  | nil => rfl
  | cons p t =>
    have h1 : runningBest none (p :: t) = runningBest (some p) t := rfl
    rw [h1, runningBest_some_eq_specBest]

theorem runningBest_some_isSome (l : List Record) (b : Record) :
    ∃ w, runningBest (some b) l = some w := by
  induction l generalizing b with
  | nil => exact ⟨b, rfl⟩
  | cons p t ih =>
    have hstep : runningBest (some b) (p :: t)
        = runningBest
            (if scoreProductCompleteness b < scoreProductCompleteness p then some p
             else some b) t := rfl
    rw [hstep]
    by_cases hbp : scoreProductCompleteness b < scoreProductCompleteness p
    · rw [if_pos hbp]
      exact ih p
    · rw [if_neg hbp]
      exact ih b

theorem lookup_groupsOf (rs : List Record) (k : String) :
    List.lookup k (groupsOf rs) = specBest (groupFor rs k) := by
  unfold groupsOf groupFor
  rw [lookup_foldl_consolidateStep]
  simp only [List.lookup_nil]
  exact runningBest_none_eq_specBest _

theorem fst_groupsOf (rs : List Record) :
    (groupsOf rs).map Prod.fst = keyTrace rs := by
  unfold groupsOf keyTrace
  rw [fst_foldl_consolidateStep]
  rfl

theorem map_snd_eq_filterMap_lookup (gs : List (String × Record))
    (h : (gs.map Prod.fst).Nodup) :
    gs.map Prod.snd = (gs.map Prod.fst).filterMap fun k => List.lookup k gs := by
  induction gs with
  | nil => rfl
  | cons hd t ih =>
    obtain ⟨k0, q⟩ := hd
    have h' : (t.map Prod.fst).Nodup := (List.nodup_cons.mp (by simpa using h)).2
    have hk0 : ¬ k0 ∈ t.map Prod.fst := (List.nodup_cons.mp (by simpa using h)).1
    simp only [List.map_cons, List.filterMap_cons]
    have hl : List.lookup k0 ((k0, q) :: t) = some q := by simp [List.lookup_cons]
    rw [hl]
    congr 1
    rw [ih h']
    apply List.filterMap_congr
    intro x hx
    have hxk : x ≠ k0 := fun he => hk0 (he ▸ hx)
    have hb : (x == k0) = false := by simp [hxk]
    simp [List.lookup_cons, hb]

theorem cleanProducts_eq_filterMap (rs : List Record) :
    cleanProducts rs = (keyTrace rs).filterMap fun k => specBest (groupFor rs k) := by
  unfold cleanProducts
  rw [map_snd_eq_filterMap_lookup (groupsOf rs)
    (by rw [fst_groupsOf]; exact keyTrace_nodup rs), fst_groupsOf]
  apply List.filterMap_congr
  intro k hk
  exact lookup_groupsOf rs k

theorem specBest_mem (l : List Record) (w : Record) (h : specBest l = some w) : w ∈ l :=
  List.mem_of_find?_eq_some h

theorem groupFor_key (rs : List Record) (k : String) (q : Record) (h : q ∈ groupFor rs k) :
    deriveKey q = some k ∧ survivesFilter q = true ∧ q ∈ rs := by
  unfold groupFor at h
  have h1 := List.mem_filter.mp h
  have h2 := List.mem_filter.mp h1.1
  refine ⟨by simpa using h1.2, h2.2, h2.1⟩

theorem specBest_groupFor_isSome (rs : List Record) (k : String) (h : k ∈ keyTrace rs) :
    ∃ w, specBest (groupFor rs k) = some w := by
  obtain ⟨p, hp, hdp⟩ := keyTrace_mem rs k h
  have hpg : p ∈ groupFor rs k := by
    unfold groupFor
    exact List.mem_filter.mpr ⟨hp, by simp [hdp]⟩
  cases hg : groupFor rs k with
  | nil =>
    rw [hg] at hpg
    cases hpg
  | cons b t =>
    rw [← runningBest_none_eq_specBest]
    have hone : runningBest none (b :: t) = runningBest (some b) t := rfl
    rw [hone]
    exact runningBest_some_isSome t b

theorem filterMap_specBest_keys (rs : List Record) (ks : List String)
    (h : ∀ k ∈ ks, k ∈ keyTrace rs) :
    ((ks.filterMap fun k => specBest (groupFor rs k)).map deriveKey) = ks.map some := by
  induction ks with
  | nil => rfl
  | cons k t ih =>
    obtain ⟨w, hw⟩ := specBest_groupFor_isSome rs k (h k (by simp))
    have hkey : deriveKey w = some k := (groupFor_key rs k w (specBest_mem _ _ hw)).1
    simp only [List.filterMap_cons, hw, List.map_cons, hkey]
    rw [ih fun k' hk' => h k' (by simp [hk'])]

theorem cleanProducts_keys (rs : List Record) :
    (cleanProducts rs).map deriveKey = (keyTrace rs).map some := by
  rw [cleanProducts_eq_filterMap]
  exact filterMap_specBest_keys rs (keyTrace rs) fun k hk => hk

theorem cleanProducts_mem_spec (rs : List Record) (q : Record)
    (h : q ∈ cleanProducts rs) :
    survivesFilter q = true ∧ ∃ k, deriveKey q = some k := by
  rw [cleanProducts_eq_filterMap] at h
  obtain ⟨k, hk, hspec⟩ := List.mem_filterMap.mp h
  have hg := groupFor_key rs k q (specBest_mem _ _ hspec)
  exact ⟨hg.2.1, k, hg.1⟩

theorem updateGroups_not_mem (gs : List (String × Record)) (k : String) (p : Record)
    (h : ¬ k ∈ gs.map Prod.fst) : updateGroups gs k p = gs ++ [(k, p)] := by
  induction gs with
  | nil => rfl
  | cons hd t ih =>
    obtain ⟨k0, q⟩ := hd
    have h0 : k0 ≠ k := fun he => h (by simp [he])
    simp only [updateGroups, if_neg h0]
    rw [ih fun hm => h (by simp [hm])]
    simp

theorem foldl_consolidateStep_fresh (l : List Record) (ks : List String)
    (gs : List (String × Record))
    (hkeys : l.map deriveKey = ks.map some)
    (hnodup : ks.Nodup)
    (hdisj : ∀ k ∈ ks, ¬ k ∈ gs.map Prod.fst) :
    l.foldl consolidateStep gs = gs ++ l.map fun p => ((deriveKey p).getD "", p) := by
  induction l generalizing gs ks with
  | nil => simp
  | cons p t ih =>
    cases ks with
    | nil => simp at hkeys
    | cons k kt =>
      simp only [List.map_cons, List.cons.injEq] at hkeys
      obtain ⟨hk1, hk2⟩ := hkeys
      have hstep : consolidateStep gs p = gs ++ [(k, p)] := by
        unfold consolidateStep
        rw [hk1]
        exact updateGroups_not_mem gs k p (hdisj k (by simp))
      have hdisj' : ∀ k' ∈ kt, ¬ k' ∈ (gs ++ [(k, p)]).map Prod.fst := by
        intro k' hk'
        rw [List.map_append]
        intro hmem
        rcases List.mem_append.mp hmem with hmg | hmk
        · exact hdisj k' (by simp [hk']) hmg
        · have he : k' = k := by simpa using hmk
          subst he
          exact (List.nodup_cons.mp hnodup).1 hk'
      rw [List.foldl_cons, hstep,
        ih kt (gs ++ [(k, p)]) hk2 (List.nodup_cons.mp hnodup).2 hdisj',
        List.append_assoc]
      congr 1
      simp [hk1]

theorem cleanProducts_fixed (l : List Record)
    (hsurv : ∀ q ∈ l, survivesFilter q = true)
    (ks : List String) (hk : l.map deriveKey = ks.map some) (hnd : ks.Nodup) :
    cleanProducts l = l := by
  unfold cleanProducts groupsOf
  rw [List.filter_eq_self.mpr hsurv,
    foldl_consolidateStep_fresh l ks [] hk hnd (by simp)]
  simp only [List.nil_append, List.map_map]
  have hcomp : (Prod.snd ∘ fun p : Record => ((deriveKey p).getD "", p)) = id := rfl
  rw [hcomp, List.map_id]

theorem cleanProducts_idem (rs : List Record) :
    cleanProducts (cleanProducts rs) = cleanProducts rs := by
  apply cleanProducts_fixed (cleanProducts rs)
    (fun q hq => (cleanProducts_mem_spec rs q hq).1) (keyTrace rs)
    (cleanProducts_keys rs) (keyTrace_nodup rs)

theorem deriveKey_eq_specKeyAmended (p : Record) : deriveKey p = specKeyAmended p := by
  simp only [deriveKey, specKeyAmended]
  by_cases hn : pyStrip (pyGet p "name") ≠ ""
  · rw [if_pos hn, if_pos hn]
    have hkey : normalizeName (pyStrip (pyGet p "name"))
        = pyLower (if pyStartsWith (pyLower (pyStrip (pyGet p "name"))) "picture of"
            then pyStrip (pyDrop (pyStrip (pyGet p "name")) 10)
            else pyStrip (pyGet p "name")) := by
      unfold normalizeName
      rw [if_neg hn, pyStrip_pyStrip]
    rw [hkey]
  · rw [if_neg hn, if_neg hn]
    by_cases hh : pyStrip (pyGet p "product_href") ≠ ""
    · rw [if_pos hh, if_pos hh, pyStrip_pyLower_pyStrip]
    · rw [if_neg hh, if_neg hh]

/-- Claim C1: consolidation keeps, for each dedup key derived from the
filtered records, exactly the group member with the highest completeness
score (first-encountered on ties, which is what `specBest` states from the
spec's words), in first-seen key order; consequently the derived keys of the
output are pairwise distinct. -/
theorem claim_C1_dedup (rs : List Record) :
    cleanProducts rs = (keyTrace rs).filterMap (fun k => specBest (groupFor rs k)) ∧
      (keyTrace rs).Nodup ∧
      (cleanProducts rs).map deriveKey = (keyTrace rs).map some ∧
      ((cleanProducts rs).map deriveKey).Nodup := by
  refine ⟨cleanProducts_eq_filterMap rs, keyTrace_nodup rs, cleanProducts_keys rs, ?_⟩
  rw [cleanProducts_keys]
  exact List.Nodup.map (fun a b h => Option.some.inj h) (keyTrace_nodup rs)

/-- Claim C4 counterexample: a record with a padded price and no name, href or
image survives the filter, but the code derives the fallback key from the
trimmed price while the claim's words use the raw field, so the two differ. -/
theorem claim_C4_counterexample :
    survivesFilter exPaddedPrice = true ∧
      deriveKey exPaddedPrice ≠ specKeyClaimed exPaddedPrice := by
  decide

/-- Claim C4 amended: the key of a surviving record is the normalized name
when the name is non-blank, else the trimmed-then-lowercased href when
non-blank, else the lowercase of trimmed-price + "_" + trimmed-image truncated
to 50 characters; records deriving an empty key are dropped, and every record
in the output derives a key. -/
theorem claim_C4_key_derivation :
    (∀ p : Record, survivesFilter p = true → deriveKey p = specKeyAmended p) ∧
      ∀ rs : List Record, ∀ q ∈ cleanProducts rs, deriveKey q ≠ none := by
  constructor
  · intro p hs
    exact deriveKey_eq_specKeyAmended p
  · intro rs q hq
    obtain ⟨hsurv, k, hk⟩ := cleanProducts_mem_spec rs q hq
    simp [hk]

/-- Claim C4 witness: a concrete surviving record whose derived key matches
the amended derivation rule. -/
theorem claim_C4_witness : deriveKey exName = specKeyAmended exName :=
  claim_C4_key_derivation.1 exName (by decide)

/-- Claim C5 counterexample: a record whose `image_url` is whitespace-only and
whose legacy `image` is non-blank is dropped by the filter, although under the
claim's reading (image means the `image_url` field or the legacy `image`
field) it has a non-blank image and must survive. -/
theorem claim_C5_counterexample :
    ¬ ((survivesFilter exShadowedImage = false) ↔
      (pyStrip (pyGet exShadowedImage "name") = "" ∧
        pyStrip (pyGet exShadowedImage "price") = "" ∧
        (pyStrip (pyGet exShadowedImage "image_url") = "" ∧
          pyStrip (pyGet exShadowedImage "image") = ""))) := by
  decide

/-- Claim C5 amended: the filter drops a record exactly when name, price and
image are all blank after trimming, where image means the `image_url` value
when it is non-empty (even if whitespace-only) and the legacy `image` value
otherwise — Python's `or` chain, not "either field non-blank". -/
theorem claim_C5_filter_iff (p : Record) :
    survivesFilter p = false ↔
      (pyStrip (pyGet p "name") = "" ∧ pyStrip (pyGet p "price") = "" ∧
        pyStrip (getImage p) = "") := by
  unfold survivesFilter
  simp only [Bool.or_eq_false_iff, decide_eq_false_iff_not, ne_eq, not_not]
  exact and_assoc

/-- Claim C6: consolidation is idempotent — consolidating an already
consolidated list yields the same canonical set (here even the same list, so
in particular the same set under order-independent equality). -/
theorem claim_C6_idempotent (rs : List Record) (p : Record) :
    p ∈ cleanProducts (cleanProducts rs) ↔ p ∈ cleanProducts rs := by
  rw [cleanProducts_idem]

/-- Claim C7: setting any absent-or-blank field of a record to a non-blank
value never decreases its completeness score. -/
theorem claim_C7_score_monotone (p : Record) (k v : String)
    (hv : pyStrip v ≠ "") (hblank : pyStrip (pyGet p k) = "") :
    scoreProductCompleteness p ≤ scoreProductCompleteness (setField p k v) :=
  scoreCompleteness_addField_mono p k v hv hblank

/-- Claim C7 witness: adding a price to a name-only record raises its score
from 10 to 15. -/
theorem claim_C7_witness :
    scoreProductCompleteness exName ≤ scoreProductCompleteness (setField exName "price" "9") :=
  claim_C7_score_monotone exName "price" "9" (by decide) (by decide)

/-! Heap model lemmas for the frame property of the consolidator. -/

theorem heapRead_append (h t : List Record) (a : Nat) (ha : a < h.length) :
    heapRead (h ++ t) a = heapRead h a := by
  unfold heapRead
  rw [List.getD_eq_getElem?_getD, List.getD_eq_getElem?_getD, List.getElem?_append_left ha]

theorem heapRead_append_self (h : List Record) (r : Record) :
    heapRead (h ++ [r]) h.length = r := by
  unfold heapRead
  rw [List.getD_eq_getElem?_getD, List.getElem?_append_right (Nat.le_refl _)]
  simp

theorem filterPassH_spec (addrs : List Nat) (h : List Record)
    (ha : ∀ a ∈ addrs, a < h.length) :
    (∃ t, (filterPassH h addrs).1 = h ++ t) ∧
      (filterPassH h addrs).2.map (heapRead (filterPassH h addrs).1)
        = (addrs.map (heapRead h)).filter survivesFilter ∧
      ∀ b ∈ (filterPassH h addrs).2, b < (filterPassH h addrs).1.length := by
  induction addrs generalizing h with
  | nil =>
    refine ⟨⟨[], by simp [filterPassH]⟩, by simp [filterPassH], by simp [filterPassH]⟩
  | cons a rest ih =>
    have haa : a < h.length := ha a (by simp)
    have ha' : ∀ b ∈ rest, b < (h ++ [heapRead h a]).length := by
      intro b hb
      have := ha b (by simp [hb])
      simp only [List.length_append, List.length_cons, List.length_nil]
      omega
    obtain ⟨⟨t', ht'⟩, hmap, hbound⟩ := ih (h ++ [heapRead h a]) ha'
    have hreads : rest.map (heapRead (h ++ [heapRead h a])) = rest.map (heapRead h) := by
      apply List.map_congr_left
      intro b hb
      exact heapRead_append h [heapRead h a] b (ha b (by simp [hb]))
    have hlen1 : h.length < (h ++ [heapRead h a]).length := by simp
    have hreadp : heapRead (filterPassH (h ++ [heapRead h a]) rest).1 h.length
        = heapRead h a := by
      rw [ht', heapRead_append _ _ _ hlen1, heapRead_append_self]
    cases hs : survivesFilter (heapRead h a) with
    | true =>
      have heq : filterPassH h (a :: rest)
          = ((filterPassH (h ++ [heapRead h a]) rest).1,
             h.length :: (filterPassH (h ++ [heapRead h a]) rest).2) := by
        simp [filterPassH, hs]
      rw [heq]
      refine ⟨⟨[heapRead h a] ++ t', by rw [← List.append_assoc]; exact ht'⟩, ?_, ?_⟩
      · simp only [List.map_cons]
        rw [hreadp, hmap, hreads]
        simp [hs]
      · intro b hb
        rcases List.mem_cons.mp hb with hb1 | hb2
        · subst hb1
          rw [ht']
          simp only [List.length_append, List.length_cons, List.length_nil]
          omega
        · exact hbound b hb2
    | false =>
      have heq : filterPassH h (a :: rest) = filterPassH (h ++ [heapRead h a]) rest := by
        simp [filterPassH, hs]
      rw [heq]
      refine ⟨⟨[heapRead h a] ++ t', by rw [← List.append_assoc]; exact ht'⟩, ?_, hbound⟩
      rw [hmap, hreads]
      simp [hs]

theorem updateGroupsH_sim (h : List Record) (gs : List (String × Nat)) (k : String) (a : Nat) :
    (updateGroupsH h gs k a).map (fun e => (e.1, heapRead h e.2))
      = updateGroups (gs.map fun e => (e.1, heapRead h e.2)) k (heapRead h a) := by
  induction gs with
  | nil => rfl
  | cons hd t ih =>
    obtain ⟨k0, b⟩ := hd
    simp only [updateGroupsH, List.map_cons, updateGroups]
    by_cases h0 : k0 = k
    · rw [if_pos h0, if_pos h0]
      split <;> simp
    · rw [if_neg h0, if_neg h0]
      simp [ih]

theorem groupPassH_fold_sim (h : List Record) (vs : List Nat) (gs : List (String × Nat)) :
    (vs.foldl (fun gs a =>
        match deriveKey (heapRead h a) with
        | none => gs
        | some k => updateGroupsH h gs k a) gs).map (fun e => (e.1, heapRead h e.2))
      = (vs.map (heapRead h)).foldl consolidateStep
          (gs.map fun e => (e.1, heapRead h e.2)) := by
  induction vs generalizing gs with
  | nil => rfl
  | cons a rest ih =>
    rw [List.map_cons, List.foldl_cons, List.foldl_cons]
    cases hd : deriveKey (heapRead h a) with
    | none =>
      have hstep : consolidateStep (gs.map fun e => (e.1, heapRead h e.2)) (heapRead h a)
          = gs.map fun e => (e.1, heapRead h e.2) := by
        simp [consolidateStep, hd]
      rw [hstep]
      exact ih gs
    | some k =>
      have hstep : consolidateStep (gs.map fun e => (e.1, heapRead h e.2)) (heapRead h a)
          = updateGroups (gs.map fun e => (e.1, heapRead h e.2)) k (heapRead h a) := by
        simp [consolidateStep, hd]
      rw [hstep, ← updateGroupsH_sim]
      exact ih (updateGroupsH h gs k a)

theorem groupPassH_sim (h : List Record) (vs : List Nat) :
    (groupPassH h vs).map (fun e => (e.1, heapRead h e.2))
      = (vs.map (heapRead h)).foldl consolidateStep [] :=
  groupPassH_fold_sim h vs []

/-- Claim C10: `_clean_products` never mutates its input records — run over an
explicit heap, it leaves every pre-existing cell unchanged (the original heap
is a prefix of the final one, the copies `p = dict(raw)` being fresh cells),
and the records it returns are exactly the pure consolidation of the input
values, so recomputing consolidation over the same stored raw list on repeated
result queries yields the same products each time. -/
theorem claim_C10_no_mutation (h : List Record) (addrs : List Nat)
    (hin : ∀ a ∈ addrs, a < h.length) :
    (cleanProductsH h addrs).1.take h.length = h ∧
      (cleanProductsH h addrs).2.map (heapRead (cleanProductsH h addrs).1)
        = cleanProducts (addrs.map (heapRead h)) := by
  obtain ⟨⟨t, ht⟩, hmap, hb⟩ := filterPassH_spec addrs h hin
  constructor
  · show (filterPassH h addrs).1.take h.length = h
    rw [ht]
    exact List.take_left h t
  · show ((groupPassH (filterPassH h addrs).1 (filterPassH h addrs).2).map Prod.snd).map
        (heapRead (filterPassH h addrs).1) = cleanProducts (addrs.map (heapRead h))
    have hcomm : ((groupPassH (filterPassH h addrs).1 (filterPassH h addrs).2).map
          Prod.snd).map (heapRead (filterPassH h addrs).1)
        = ((groupPassH (filterPassH h addrs).1 (filterPassH h addrs).2).map
            (fun e => (e.1, heapRead (filterPassH h addrs).1 e.2))).map Prod.snd := by
      rw [List.map_map, List.map_map]
      exact List.map_congr_left fun e he => rfl
    rw [hcomm, groupPassH_sim, hmap]
    rfl

/-- Claim C10 witness: a concrete two-record heap is left intact and the
returned addresses read back as the pure consolidation of the stored values. -/
theorem claim_C10_witness :
    (cleanProductsH exHeap [0, 1]).1.take exHeap.length = exHeap ∧
      (cleanProductsH exHeap [0, 1]).2.map (heapRead (cleanProductsH exHeap [0, 1]).1)
        = cleanProducts ([0, 1].map (heapRead exHeap)) :=
  claim_C10_no_mutation exHeap [0, 1] (by decide)
